import Mathlib

set_option maxRecDepth 40000

/-!
# Verification of the StudyAid audio/visual synchronization scheduler

Shallow embedding of the scheduling core of the StudyAid repository:

* `CanvasBoard.jsx` — the staged-reveal controller (`drawCommand` for
  `ANIMATE_SEQUENCE`, pagination, reveal timers, page navigation) and the
  graph sampling loop (`parseFunction`, `drawGraph`),
* the two `App.jsx` revisions — visual-command queueing/scheduling
  (`scheduleVisualCommand`, `processVisualCommandQueue`) and the PCM
  playback timeline (`playPcmChunk`, the disconnect reset),
* `useAudioStream.js` — `floatTo16BitPCM`.

Time is modelled in milliseconds (`Nat`) for the staged-reveal controller,
whose delays are integral, and in seconds (`ℚ`) for the audio clock, whose
values are fractional.  JavaScript timers (`setTimeout`) are modelled as an
explicit queue of pending timers, kept sorted by deadline with ties in
registration order, exactly the firing order of the single-threaded event
loop.  Canvas/DOM painting is outside the model (the renderer is an external
collaborator); the modelled state is the pagination/animation state the
component keeps (`slides`, `currentSlideIndex`, `isAnimating`,
`solutionTitle`).
-/

namespace StudyAid

/-- A visual draw command (the tagged objects emitted by
`GeminiLiveBridge.handleGeminiMessage` and consumed by
`CanvasBoard.drawCommand`): `ANIMATE_SEQUENCE`, `DRAW_GRAPH`, `DRAW_SHAPE`,
`DRAW_TEXT` with their payload fields. -/
inductive Cmd : Type
  | animateSequence (title : String) (steps : List String)
  | drawGraph (function : String) (rmin rmax : ℚ) (color : String)
  | drawShape (shape : String) (points : List (ℚ × ℚ)) (color : String)
  | drawText (text : String) (position : Option (ℚ × ℚ)) (color : String)
deriving DecidableEq

/-- One step entry of a solution page: `{ content: s, visible: false }` in
`drawCommand`'s pagination of `ANIMATE_SEQUENCE`. -/
structure StepEntry where
  content : String
  visible : Bool
deriving DecidableEq

/-- The pagination/animation state of `CanvasBoard`
(`slides`, `currentSlideIndex`, `isAnimating`, `solutionTitle`). -/
structure Board where
  slides : List (List StepEntry)
  currentSlideIndex : Nat
  isAnimating : Bool
  solutionTitle : String
deriving DecidableEq

/-- The body of a pending `setTimeout` callback registered by `drawCommand`:
either the reveal callback for the step at `(pageIndex, stepIndexInPage)`,
or the final callback that clears `isAnimating`. -/
inductive TimerAction : Type
  | reveal (pageIndex stepIndexInPage : Nat)
  | clearAnim
deriving DecidableEq

/-- A pending timer: deadline (ms, absolute) plus its callback. -/
structure Timer where
  fireAt : Nat
  action : TimerAction
deriving DecidableEq

/-- The component state together with the event loop's pending timers
(kept sorted by deadline, ties in registration order). -/
structure Sys where
  board : Board
  timers : List Timer
deriving DecidableEq

/-- `STEPS_PER_PAGE` in `drawCommand`. -/
def STEPS_PER_PAGE : Nat := 3

/-- `readingTime` for one step: `Math.max(400, stepContent.length * 25)`. -/
def readingTime (len : Nat) : Nat := max 400 (len * 25)

/-- The cumulative delay before step `k` is revealed:
`cumulativeDelay` starts at 300 and each iteration of the `forEach` adds the
previous step's `readingTime`.  `cumulativeDelay steps steps.length` is the
value after the loop, used for the `isAnimating`-clearing timeout. -/
def cumulativeDelay (steps : List String) (k : Nat) : Nat :=
  300 + ((steps.take k).map (fun s => readingTime s.length)).sum

/-- Pagination: `for (let i = 0; i < steps.length; i += STEPS_PER_PAGE)`
pushes `steps.slice(i, i+3).map(s => ({ content: s, visible: false }))` —
consecutive chunks of at most `STEPS_PER_PAGE = 3` steps, order preserved. -/
def paginate : List String → List (List StepEntry)
  | [] => []
  | [a] => [[⟨a, false⟩]]
  | [a, b] => [[⟨a, false⟩, ⟨b, false⟩]]
  | a :: b :: c :: rest => [⟨a, false⟩, ⟨b, false⟩, ⟨c, false⟩] :: paginate rest

/-- Update the element at an index, leaving the list unchanged when the index
is out of range — the semantics of the guarded in-place update
`if (newSlidesState[pageIndex] && newSlidesState[pageIndex][stepIndexInPage])`. -/
def updateAt {α : Type} (f : α → α) : Nat → List α → List α
  | _, [] => []
  | 0, a :: as => f a :: as
  | n + 1, a :: as => a :: updateAt f n as

/-- Run one fired timer callback against the board.  The reveal callback
switches the displayed page when the step is the first of its page
(`if (stepIndexInPage === 0) setCurrentSlideIndex(pageIndex)`), then marks
the step visible if it exists; the final callback sets `isAnimating` false. -/
def fireAction (a : TimerAction) (b : Board) : Board :=
  match a with
  | .reveal p k =>
    let b1 := if k = 0 then { b with currentSlideIndex := p } else b
    { b1 with
      slides := updateAt (updateAt (fun st => { st with visible := true }) k) p b1.slides }
  | .clearAnim => { b with isAnimating := false }

/-- Insert a newly registered timer after every pending timer with an earlier
or equal deadline (the event loop fires equal deadlines in registration
order). -/
def insertTimer (t : Timer) : List Timer → List Timer
  | [] => [t]
  | u :: us => if u.fireAt ≤ t.fireAt then u :: insertTimer t us else t :: u :: us

/-- The reveal timers registered by the `steps.forEach` of
`drawCommand (ANIMATE_SEQUENCE)`: step `k` (global, 0-based) at absolute
deadline `now + cumulativeDelay k`, for page `k / 3`, in-page index `k % 3`. -/
def stepTimers (now : Nat) (steps : List String) : List Timer :=
  (List.range steps.length).map
    (fun k => ⟨now + cumulativeDelay steps k, .reveal (k / STEPS_PER_PAGE) (k % STEPS_PER_PAGE)⟩)

/-- `CanvasBoard.drawCommand` at wall-clock time `now` (ms), restricted to the
pagination/animation state and the timers it registers.  The
`ANIMATE_SEQUENCE` branch repaginates, resets the page index, raises
`isAnimating` and registers the reveal timers plus the `isAnimating`-clearing
timer; every other branch only clears `slides` and `solutionTitle`
(the canvas drawing itself is rendering, outside the model).  No branch
cancels pending timers (the source keeps no timeout handles). -/
def drawCommand (now : Nat) (cmd : Cmd) (s : Sys) : Sys :=
  match cmd with
  | .animateSequence title steps =>
    { board :=
        { slides := paginate steps
          currentSlideIndex := 0
          isAnimating := true
          solutionTitle := title }
      timers :=
        (stepTimers now steps ++
            [(⟨now + cumulativeDelay steps steps.length + 1000, .clearAnim⟩ : Timer)]).foldl
          (fun ts tm => insertTimer tm ts) s.timers }
  | _ =>
    { s with board := { s.board with slides := [], solutionTitle := "" } }

/-- Advance the event loop to time `T`: fire every pending timer whose
deadline has passed, in queue order. -/
def runUntil (s : Sys) (T : Nat) : Sys :=
  { board :=
      (s.timers.takeWhile (fun tm => decide (tm.fireAt ≤ T))).foldl
        (fun b tm => fireAction tm.action b) s.board
    timers := s.timers.dropWhile (fun tm => decide (tm.fireAt ≤ T)) }

/-- Run a trace: process the command arrivals (given in time order), firing
due timers before each arrival, and finally advance the loop to time `T`. -/
def run : List (Nat × Cmd) → Nat → Sys → Sys
  | [], T, s => runUntil s T
  | (t, c) :: rest, T, s => run rest T (drawCommand t c (runUntil s t))

/-- The initial component state: no slides, page 0, not animating, no title,
no pending timers. -/
def initSys : Sys := ⟨⟨[], 0, false, ""⟩, []⟩

/-- Whether the step at global index `k` of the current solution is marked
visible (reading the entry at page `k / 3`, in-page index `k % 3`). -/
def stepVisible (b : Board) (k : Nat) : Bool :=
  ((b.slides.getD (k / STEPS_PER_PAGE) []).getD (k % STEPS_PER_PAGE) ⟨"", false⟩).visible

/-- The `← Back` button: `setCurrentSlideIndex(Math.max(0, currentSlideIndex - 1))`. -/
def prevPage (b : Board) : Board :=
  { b with currentSlideIndex := max 0 (b.currentSlideIndex - 1) }

/-- The `Next →` button:
`setCurrentSlideIndex(Math.min(slides.length - 1, currentSlideIndex + 1))`. -/
def nextPage (b : Board) : Board :=
  { b with currentSlideIndex := min (b.slides.length - 1) (b.currentSlideIndex + 1) }

/-- The full batch of timers one `ANIMATE_SEQUENCE` registers, in
registration (= deadline) order: one reveal timer per step, then the
`isAnimating`-clearing timer. -/
def scheduleBatch (now : Nat) (steps : List String) : List Timer :=
  stepTimers now steps ++
    [(⟨now + cumulativeDelay steps steps.length + 1000, .clearAnim⟩ : Timer)]

/-! ### Visual command queue and sync scheduler (the two App.jsx revisions) -/

/-- A queued visual command with its arrival timestamp
(`visualCommandQueueRef.current.push({ cmd, timestamp: Date.now() })`). -/
structure QueuedVisual where
  cmd : Cmd
  timestamp : ℚ
deriving DecidableEq

/-- What `scheduleVisualCommand` does with an arriving command: append it to
the queue, invoke the draw callback synchronously inline, or register a
`setTimeout` for it with the given delay (ms). -/
inductive RealizeEffect : Type
  | queuedOnly
  | drawNow
  | drawAfter (msDelay : ℚ)
deriving DecidableEq

/-- The newer `App.jsx` scheduling state: `audioStartTimeRef` and the visual
command queue. -/
structure AppStateNew where
  audioStartTime : Option ℚ
  queue : List QueuedVisual
deriving DecidableEq

/-- The newer `App.jsx`'s `scheduleVisualCommand`: when no utterance audio
has begun the command is queued with its arrival timestamp; otherwise
`drawVisualCommandRef.current(cmd)` is invoked immediately, synchronously. -/
def scheduleVisualCommandNew (now : ℚ) (cmd : Cmd) (s : AppStateNew) :
    AppStateNew × RealizeEffect :=
  match s.audioStartTime with
  | none => ({ s with queue := s.queue ++ [⟨cmd, now⟩] }, .queuedOnly)
  | some _ => (s, .drawNow)

/-- The older `App.jsx` scheduling state: whether `audioCtxRef.current` is
set, `audioStartTimeRef`, and the queue. -/
structure AppStateOld where
  audioCtxInit : Bool
  audioStartTime : Option ℚ
  queue : List QueuedVisual
deriving DecidableEq

/-- The older `App.jsx` delay heuristic (seconds): 1.0 when the audio just
started (`audioElapsed < 0.5`), 0.5 while `audioElapsed < 2.0`, else the
default 0.8. -/
def visualDelaySeconds (audioElapsed : ℚ) : ℚ :=
  if audioElapsed < 1/2 then 1 else if audioElapsed < 2 then 1/2 else 4/5

/-- The older `App.jsx`'s `scheduleVisualCommand`: queue (with timestamp)
when there is no audio context or no audio start time yet; otherwise register
a `setTimeout` after `max 0 ((scheduleTime - now) * 1000)` ms where
`scheduleTime = ctx.currentTime + delaySeconds` and `now` re-reads the same
clock. -/
def scheduleVisualCommandOld (now currentAudioTime : ℚ) (cmd : Cmd) (s : AppStateOld) :
    AppStateOld × RealizeEffect :=
  if s.audioCtxInit = false then ({ s with queue := s.queue ++ [⟨cmd, now⟩] }, .queuedOnly)
  else
    match s.audioStartTime with
    | none => ({ s with queue := s.queue ++ [⟨cmd, now⟩] }, .queuedOnly)
    | some audioStart =>
      let audioElapsed := currentAudioTime - audioStart
      let delaySeconds := visualDelaySeconds audioElapsed
      let scheduleTime := currentAudioTime + delaySeconds
      (s, .drawAfter (max 0 ((scheduleTime - currentAudioTime) * 1000)))

/-- The older `App.jsx`'s `processVisualCommandQueue`: with an established
timeline, an audio context and a non-empty queue, snapshot-then-clear the
queue and schedule entry `i` after
`max 0 ((audioStartTime + (0.8 + i·0.3) - currentAudioTime) * 1000)` ms, in
queue order. -/
def processQueueOld (currentAudioTime : ℚ) (s : AppStateOld) :
    AppStateOld × List (Cmd × ℚ) :=
  match s.audioStartTime with
  | none => (s, [])
  | some audioStart =>
    if s.queue = [] then (s, [])
    else if s.audioCtxInit = false then (s, [])
    else
      ({ s with queue := [] },
        s.queue.enum.map (fun iq =>
          (iq.2.cmd,
            max 0 ((audioStart + (4/5 + (iq.1 : ℚ) * (3/10)) - currentAudioTime) * 1000))))

/-! ### PCM playback timeline (App.jsx `playPcmChunk`, both revisions) -/

/-- The playback timeline refs: `nextTimeRef` and `audioStartTimeRef`. -/
structure Timeline where
  nextTime : ℚ
  audioStartTime : Option ℚ
deriving DecidableEq

/-- `BUFFER_LOOKAHEAD` (200 ms) of the newer `playPcmChunk`. -/
def BUFFER_LOOKAHEAD : ℚ := 1/5

/-- The newer `playPcmChunk`'s timeline bookkeeping for one chunk:
`currentTime` is `ctx.currentTime` and `dur` the decoded buffer's duration
(seconds).  Initialise `nextTime` on the first chunk ever
(`nextTimeRef.current === 0`), catch up when the clock overtook the
timeline, record `audioStartTimeRef` on the first chunk of an utterance,
start the source at `nextTime` and advance it by the duration.  Returns the
updated timeline and the chunk's scheduled start. -/
def playPcmChunkNew (currentTime dur : ℚ) (tl : Timeline) : Timeline × ℚ :=
  let n1 := if tl.nextTime = 0 then currentTime + BUFFER_LOOKAHEAD else tl.nextTime
  let n2 := if n1 < currentTime then currentTime + BUFFER_LOOKAHEAD else n1
  let ast := match tl.audioStartTime with
    | none => n2
    | some a => a
  (⟨n2 + dur, some ast⟩, n2)

/-- The older `playPcmChunk`'s timeline bookkeeping: no lookahead cushion and
no explicit first-chunk initialisation — only catching up to the clock when
behind. -/
def playPcmChunkOld (currentTime dur : ℚ) (tl : Timeline) : Timeline × ℚ :=
  let n1 := if tl.nextTime < currentTime then currentTime else tl.nextTime
  let ast := match tl.audioStartTime with
    | none => n1
    | some a => a
  (⟨n1 + dur, some ast⟩, n1)

/-- The socket `disconnect` handler's audio reset: it clears
`audioStartTimeRef` (and the visual queue and queued-duration counter) but
leaves `nextTimeRef` at its old value. -/
def resetOnDisconnect (tl : Timeline) : Timeline := { tl with audioStartTime := none }

/-- The initial timeline: `nextTimeRef.current = 0`, no audio start. -/
def initTimeline : Timeline := ⟨0, none⟩

/-- Feed a sequence of `(ctx.currentTime, duration)` chunk arrivals through
the newer `playPcmChunk`, collecting each chunk's `(start, duration)`. -/
def runChunksNew : List (ℚ × ℚ) → Timeline → Timeline × List (ℚ × ℚ)
  | [], tl => (tl, [])
  | (c, d) :: rest, tl =>
    let r := playPcmChunkNew c d tl
    let rest' := runChunksNew rest r.1
    (rest'.1, (r.2, d) :: rest'.2)

/-- The same for the older `playPcmChunk`. -/
def runChunksOld : List (ℚ × ℚ) → Timeline → Timeline × List (ℚ × ℚ)
  | [], tl => (tl, [])
  | (c, d) :: rest, tl =>
    let r := playPcmChunkOld c d tl
    let rest' := runChunksOld rest r.1
    (rest'.1, (r.2, d) :: rest'.2)

/-! ### Graph sampling (CanvasBoard.jsx `parseFunction` / `drawGraph`) -/

/-- A JavaScript number as the sampling loop observes it: a finite rational,
or a non-finite value (`NaN` / `±Infinity`, rejected by `isFinite`). -/
inductive JsVal : Type
  | finite (y : ℚ)
  | nonFinite
deriving DecidableEq

/-- One evaluation of the compiled user expression at a sample: it yields a
value or it throws. -/
inductive EvalOutcome : Type
  | val (v : JsVal)
  | throws
deriving DecidableEq

/-- The closure returned by `parseFunction`: the `try/catch` inside it turns
a throwing evaluation into the value `0` (`catch (e) { ... return 0; }`). -/
def parseFunctionEval (f : ℚ → EvalOutcome) (x : ℚ) : JsVal :=
  match f x with
  | .val v => v
  | .throws => .finite 0

/-- Canvas geometry of `drawGraph`: an 800×600 canvas with 60px padding. -/
def canvasWidth : ℚ := 800

def canvasHeight : ℚ := 600

def graphPadding : ℚ := 60

def graphWidth : ℚ := canvasWidth - 2 * graphPadding

def graphHeight : ℚ := canvasHeight - 2 * graphPadding

/-- `yRange = 5` in `drawGraph`. -/
def yRange : ℚ := 5

def yScale : ℚ := graphHeight / (2 * yRange)

def originY : ℚ := canvasHeight / 2

def xScale (rmin rmax : ℚ) : ℚ := graphWidth / (rmax - rmin)

/-- `pixelX = padding + (x - range.min) * xScale`. -/
def pixelX (rmin rmax x : ℚ) : ℚ := graphPadding + (x - rmin) * xScale rmin rmax

/-- `pixelY = originY - y * yScale`. -/
def pixelY (y : ℚ) : ℚ := originY - y * yScale

/-- The sampling step `(range.max - range.min) / (graphWidth * 2)`. -/
def sampleStep (rmin rmax : ℚ) : ℚ := (rmax - rmin) / (graphWidth * 2)

/-- The samples visited by the loop
`for (let x = range.min; x <= range.max; x += step)`: with exact rational
arithmetic `x_i = rmin + i·step` satisfies the loop condition `x_i ≤ rmax`
exactly for `i ≤ 1360` (when `rmin < rmax`; see `sampleXs_loop_condition`),
so the loop visits the 1361 samples `i = 0 .. 1360`. -/
def sampleXs (rmin rmax : ℚ) : List ℚ :=
  (List.range 1361).map (fun i => rmin + (i : ℚ) * sampleStep rmin rmax)

/-- The body of the sampling loop for one sample `x`: evaluate the compiled
expression and push the pixel point when the value is finite with
`Math.abs(y) < 100` (`isFinite(y) && Math.abs(y) < 100`); otherwise push
nothing. -/
def keepSample (f : ℚ → EvalOutcome) (rmin rmax x : ℚ) : Option (ℚ × ℚ) :=
  match parseFunctionEval f x with
  | .finite y => if |y| < 100 then some (pixelX rmin rmax x, pixelY y) else none
  | .nonFinite => none

/-- The `points` array built by `drawGraph`'s sampling loop (the plotted
polyline connects its consecutive entries). -/
def drawGraphPoints (f : ℚ → EvalOutcome) (rmin rmax : ℚ) : List (ℚ × ℚ) :=
  (sampleXs rmin rmax).filterMap (keepSample f rmin rmax)

/-- An expression oracle that throws exactly at `x = 0` and otherwise
evaluates to `x` itself. -/
def throwAtZero : ℚ → EvalOutcome :=
  fun x => if x = 0 then .throws else .val (.finite x)

/-! ### Microphone Float32 → Int16 conversion (useAudioStream.js) -/

/-- JavaScript's ToInteger truncation toward zero of a finite number. -/
def jsTrunc (q : ℚ) : ℤ := if 0 ≤ q then ⌊q⌋ else ⌈q⌉

/-- Storing a finite number into an `Int16Array` slot: truncate toward zero,
then wrap modulo 2^16 into `[-2^15, 2^15)` (the wrap never fires for the
in-range values this conversion produces). -/
def toInt16 (q : ℚ) : ℤ := (jsTrunc q + 2 ^ 15) % 2 ^ 16 - 2 ^ 15

/-- The per-sample product of `floatTo16BitPCM`: clamp the sample to
`[-1, 1]` (`Math.max(-1, Math.min(1, input[i]))`), then scale by `0x8000`
when negative and by `0x7FFF` otherwise
(`s < 0 ? s * 0x8000 : s * 0x7FFF`). -/
def pcmScaled (v : ℚ) : ℚ :=
  let s := max (-1) (min 1 v)
  if s < 0 then s * 0x8000 else s * 0x7FFF

/-- `floatTo16BitPCM`: store each sample's clamped, scaled product into an
`Int16Array` of the same length as the input. -/
def floatTo16BitPCM (input : List ℚ) : List ℤ :=
  input.map (fun v => toInt16 (pcmScaled v))

/-! ## Basic lemmas about the reveal schedule -/

theorem cumulativeDelay_zero (steps : List String) : cumulativeDelay steps 0 = 300 := by
  simp [cumulativeDelay]

theorem cumulativeDelay_succ (steps : List String) (k : Nat) (h : k < steps.length) :
    cumulativeDelay steps (k + 1) =
      cumulativeDelay steps k + readingTime (steps.getD k "").length := by
  unfold cumulativeDelay
  rw [List.take_succ, List.map_append, List.sum_append, List.getD_eq_getElem?_getD,
    List.getElem?_eq_getElem h]
  simp [Nat.add_assoc]

theorem cumulativeDelay_mono (steps : List String) {k m : Nat} (h : k ≤ m) :
    cumulativeDelay steps k ≤ cumulativeDelay steps m := by
  unfold cumulativeDelay
  have h1 : steps.take k = (steps.take m).take k := by
    rw [List.take_take, Nat.min_eq_left h]
  calc 300 + ((steps.take k).map fun s => readingTime s.length).sum
      = 300 + (((steps.take m).take k).map fun s => readingTime s.length).sum := by rw [h1]
    _ ≤ 300 + ((((steps.take m).take k).map fun s => readingTime s.length).sum
          + (((steps.take m).drop k).map fun s => readingTime s.length).sum) :=
        Nat.add_le_add_left (Nat.le_add_right _ _) _
    _ = 300 + ((steps.take m).map fun s => readingTime s.length).sum := by
        rw [← List.sum_append, ← List.map_append, List.take_append_drop]

theorem insertTimer_of_le (tm : Timer) :
    ∀ l : List Timer, (∀ u ∈ l, u.fireAt ≤ tm.fireAt) → insertTimer tm l = l ++ [tm]
  | [], _ => rfl
  | u :: us, h => by
    simp only [insertTimer, if_pos (h u (List.mem_cons_self u us))]
    rw [insertTimer_of_le tm us (fun v hv => h v (List.mem_cons_of_mem u hv))]
    rfl

theorem foldl_insertTimer :
    ∀ (batch acc : List Timer),
      (∀ u ∈ acc, ∀ v ∈ batch, u.fireAt ≤ v.fireAt) →
      List.Pairwise (fun a b => a.fireAt ≤ b.fireAt) batch →
      batch.foldl (fun ts t => insertTimer t ts) acc = acc ++ batch
  | [], acc, _, _ => by simp
  | tm :: rest, acc, hcross, hpw => by
    simp only [List.foldl_cons]
    have hacc : ∀ u ∈ acc, u.fireAt ≤ tm.fireAt :=
      fun u hu => hcross u hu tm (List.mem_cons_self _ _)
    rw [insertTimer_of_le tm acc hacc]
    have hpw' := List.pairwise_cons.mp hpw
    rw [foldl_insertTimer rest (acc ++ [tm]) ?_ hpw'.2]
    · simp
    · intro u hu v hv
      rcases List.mem_append.mp hu with h | h
      · exact hcross u h v (List.mem_cons_of_mem _ hv)
      · rw [List.mem_singleton.mp h]
        exact hpw'.1 v hv

/-- The batch of timers registered by one `ANIMATE_SEQUENCE` has non-decreasing
deadlines in registration order. -/
theorem pairwise_scheduleBatch (now : Nat) (steps : List String) :
    List.Pairwise (fun a b : Timer => a.fireAt ≤ b.fireAt)
      (stepTimers now steps ++
        [(⟨now + cumulativeDelay steps steps.length + 1000, .clearAnim⟩ : Timer)]) := by
  rw [List.pairwise_append]
  refine ⟨?_, List.pairwise_singleton _ _, ?_⟩
  · unfold stepTimers
    rw [List.pairwise_map]
    refine (List.pairwise_lt_range _).imp ?_
    intro a b hab
    exact Nat.add_le_add_left (cumulativeDelay_mono steps (Nat.le_of_lt hab)) now
  · intro a ha b hb
    rw [List.mem_singleton.mp hb]
    unfold stepTimers at ha
    obtain ⟨k, hk, rfl⟩ := List.mem_map.mp ha
    have := cumulativeDelay_mono steps (Nat.le_of_lt (List.mem_range.mp hk))
    simp only
    omega

/-- **C1.**  For an `ANIMATE_SEQUENCE` instruction arriving at time `now` with
no timers pending, `drawCommand` registers exactly the reveal timer of step
`k` at absolute time `now + cumulativeDelay k` for every `k`, followed by the
`isAnimating`-clearing timer at `now + cumulativeDelay steps.length + 1000`
(1000ms after the last step's delay window `cumulativeDelay (n-1) +
readingTime (n-1)` elapses); `cumulativeDelay` satisfies the recurrence
`cumulativeDelay 0 = 300`, `cumulativeDelay (k+1) = cumulativeDelay k +
readingTime (len k)` with `readingTime len = max 400 (len * 25)`.  In
particular for two steps of lengths 27 and 24, step 0 becomes visible exactly
at 300ms, step 1 exactly at 975ms, and `isAnimating` clears exactly at
2575ms. -/
theorem C1_reveal_schedule :
    (∀ (now : Nat) (title : String) (steps : List String) (s : Sys), s.timers = [] →
      (drawCommand now (Cmd.animateSequence title steps) s).timers =
        (List.range steps.length).map
            (fun k => ⟨now + cumulativeDelay steps k,
              .reveal (k / STEPS_PER_PAGE) (k % STEPS_PER_PAGE)⟩) ++
          [(⟨now + cumulativeDelay steps steps.length + 1000, .clearAnim⟩ : Timer)]) ∧
    (∀ (steps : List String) (k : Nat), k < steps.length →
      cumulativeDelay steps 0 = 300 ∧
      cumulativeDelay steps (k + 1) =
        cumulativeDelay steps k + readingTime (steps.getD k "").length) ∧
    (∀ s0 s1 : String, s0.length = 27 → s1.length = 24 →
      stepVisible (run [(0, Cmd.animateSequence "T" [s0, s1])] 299 initSys).board 0 = false ∧
      stepVisible (run [(0, Cmd.animateSequence "T" [s0, s1])] 300 initSys).board 0 = true ∧
      stepVisible (run [(0, Cmd.animateSequence "T" [s0, s1])] 974 initSys).board 1 = false ∧
      stepVisible (run [(0, Cmd.animateSequence "T" [s0, s1])] 975 initSys).board 1 = true ∧
      (run [(0, Cmd.animateSequence "T" [s0, s1])] 2574 initSys).board.isAnimating = true ∧
      (run [(0, Cmd.animateSequence "T" [s0, s1])] 2575 initSys).board.isAnimating = false) := by
  refine ⟨?_, ?_, ?_⟩
  · intro now title steps s hempty
    show (stepTimers now steps ++ _).foldl _ s.timers = _
    rw [hempty, foldl_insertTimer _ [] (by simp) (pairwise_scheduleBatch now steps)]
    rfl
  · intro steps k hk
    exact ⟨cumulativeDelay_zero steps, cumulativeDelay_succ steps k hk⟩
  · intro s0 s1 h0 h1
    refine ⟨?_, ?_, ?_, ?_, ?_, ?_⟩ <;>
      simp [run, runUntil, drawCommand, stepTimers, cumulativeDelay, readingTime, h0, h1,
        insertTimer, stepVisible, paginate, fireAction, updateAt, initSys, STEPS_PER_PAGE,
        List.range_succ]

/-- Witness for C1 at concrete inputs: an empty timer queue and two concrete
steps of lengths 27 and 24. -/
theorem C1_reveal_schedule_witness :
    stepVisible
      (run [(0, Cmd.animateSequence "T"
        ["abcdefghijklmnopqrstuvwxyza", "abcdefghijklmnopqrstuvwx"])] 300 initSys).board 0
      = true := by
  have h := C1_reveal_schedule.2.2 "abcdefghijklmnopqrstuvwxyza" "abcdefghijklmnopqrstuvwx"
    (by decide) (by decide)
  exact h.2.1

/-! ## Pre-emption by non-sequence commands (C4) -/

/-- **C4 (counterexample).**  An `ANIMATE_SEQUENCE` with one step arrives at
0ms (registering its reveal timer at 300ms and its `isAnimating`-clearing
timer at 1700ms); a `DRAW_SHAPE` arrives at 10ms.  Immediately after the
pre-emption `isAnimating` is still `true` (the claim says it becomes `false`
immediately) and both timers are still pending (the claim says pending reveal
timers are cancelled). -/
theorem C4_preemption_counterexample :
    (run [(0, Cmd.animateSequence "T" ["a"]), (10, Cmd.drawShape "circle" [] "#00FF00")]
        10 initSys).board.isAnimating = true ∧
    (run [(0, Cmd.animateSequence "T" ["a"]), (10, Cmd.drawShape "circle" [] "#00FF00")]
        10 initSys).timers =
      [⟨300, .reveal 0 0⟩, ⟨1700, .clearAnim⟩] := by decide

/-- **C4 (amended).**  Processing any non-`ANIMATE_SEQUENCE` instruction
immediately clears the pagination to zero pages and erases the title, but it
leaves `isAnimating` and the page index unchanged and cancels no pending
timer (the source keeps no timeout handles).  After the pre-emption a stale
reveal timer can no longer mark any step visible, because firing a reveal
callback against an empty slide list leaves it empty. -/
theorem C4_preemption_amended (now : Nat) (cmd : Cmd) (s : Sys)
    (h : ∀ title steps, cmd ≠ Cmd.animateSequence title steps) :
    (drawCommand now cmd s).board.slides = [] ∧
    (drawCommand now cmd s).board.solutionTitle = "" ∧
    (drawCommand now cmd s).board.isAnimating = s.board.isAnimating ∧
    (drawCommand now cmd s).board.currentSlideIndex = s.board.currentSlideIndex ∧
    (drawCommand now cmd s).timers = s.timers ∧
    (∀ (p k : Nat) (b : Board), b.slides = [] → (fireAction (.reveal p k) b).slides = []) := by
  have hfire : ∀ (p k : Nat) (b : Board), b.slides = [] →
      (fireAction (.reveal p k) b).slides = [] := by
    intro p k b hb
    show (updateAt _ p (if k = 0 then { b with currentSlideIndex := p } else b).slides) = []
    split <;> simp [hb, updateAt]
  cases cmd with
  | animateSequence title steps => exact absurd rfl (h title steps)
  | drawGraph f r1 r2 c => exact ⟨rfl, rfl, rfl, rfl, rfl, hfire⟩
  | drawShape sh pts c => exact ⟨rfl, rfl, rfl, rfl, rfl, hfire⟩
  | drawText tx pos c => exact ⟨rfl, rfl, rfl, rfl, rfl, hfire⟩

/-- Witness for C4 (amended) at a concrete pre-empted state. -/
theorem C4_preemption_amended_witness :
    (drawCommand 10 (Cmd.drawText "hi" none "#fff")
        ⟨⟨[[⟨"s", true⟩]], 0, true, "t"⟩, [⟨99, .clearAnim⟩]⟩).board.slides = [] ∧
    (drawCommand 10 (Cmd.drawText "hi" none "#fff")
        ⟨⟨[[⟨"s", true⟩]], 0, true, "t"⟩, [⟨99, .clearAnim⟩]⟩).board.isAnimating = true := by
  have h := C4_preemption_amended 10 (Cmd.drawText "hi" none "#fff")
    ⟨⟨[[⟨"s", true⟩]], 0, true, "t"⟩, [⟨99, .clearAnim⟩]⟩
    (by intro title steps heq; exact Cmd.noConfusion heq)
  exact ⟨h.1, h.2.2.1⟩

/-! ## Pagination and manual navigation (C7) -/

theorem paginate_join :
    ∀ steps : List String,
      ((paginate steps).map (fun p => p.map StepEntry.content)).flatten = steps
  | [] => rfl
  | [_] => rfl
  | [_, _] => rfl
  | a :: b :: c :: rest => by
    simpa [paginate] using paginate_join rest

theorem paginate_page_length :
    ∀ steps : List String, ∀ page ∈ paginate steps, page.length ≤ STEPS_PER_PAGE
  | [], _, hp => by simp [paginate] at hp
  | [a], page, hp => by
    simp [paginate] at hp
    simp [hp, STEPS_PER_PAGE]
  | [a, b], page, hp => by
    simp [paginate] at hp
    simp [hp, STEPS_PER_PAGE]
  | a :: b :: c :: rest, page, hp => by
    rcases List.mem_cons.mp hp with h | h
    · simp [h, STEPS_PER_PAGE]
    · exact paginate_page_length rest page h

/-- **C7.**  A `SequenceAnimate`'s steps are partitioned into consecutive
pages of at most `STEPS_PER_PAGE = 3` steps preserving order (concatenating
the pages' contents gives back the step list); 7 steps yield pages of sizes
`[3, 3, 1]`; and both navigation buttons keep the page index inside
`[0, pageCount − 1]` and leave the slides — hence every step's `visible`
flag — unchanged. -/
theorem C7_pagination_navigation :
    (∀ steps : List String, steps.length = 7 → (paginate steps).map List.length = [3, 3, 1]) ∧
    (∀ steps : List String,
      ((paginate steps).map (fun p => p.map StepEntry.content)).flatten = steps) ∧
    (∀ steps : List String, ∀ page ∈ paginate steps, page.length ≤ STEPS_PER_PAGE) ∧
    (∀ b : Board, b.currentSlideIndex < b.slides.length →
      (prevPage b).currentSlideIndex < b.slides.length ∧
      (nextPage b).currentSlideIndex < b.slides.length ∧
      (prevPage b).slides = b.slides ∧ (nextPage b).slides = b.slides) := by
  refine ⟨?_, paginate_join, paginate_page_length, ?_⟩
  · intro steps h
    rcases steps with _ | ⟨a, _ | ⟨b, _ | ⟨c, _ | ⟨d, _ | ⟨e, _ | ⟨f, _ | ⟨g, rest⟩⟩⟩⟩⟩⟩⟩ <;>
      simp_all [paginate]
  · intro b hb
    refine ⟨?_, ?_, rfl, rfl⟩
    · simp only [prevPage]
      omega
    · simp only [nextPage]
      omega

/-- Witness for C7 at a concrete 7-step solution and a concrete board. -/
theorem C7_pagination_navigation_witness :
    (paginate ["a", "b", "c", "d", "e", "f", "g"]).map List.length = [3, 3, 1] ∧
    (nextPage ⟨[[], []], 1, false, ""⟩).currentSlideIndex < 2 := by
  refine ⟨C7_pagination_navigation.1 _ (by decide), ?_⟩
  exact (C7_pagination_navigation.2.2.2 ⟨[[], []], 1, false, ""⟩ (by decide)).2.1

/-! ## Reveal ordering (C8): index lemmas for `updateAt`, `fireAction`, `paginate` -/

theorem updateAt_nil {α : Type} (f : α → α) (n : Nat) : updateAt f n ([] : List α) = [] := by
  cases n <;> rfl

theorem updateAt_length {α : Type} (f : α → α) :
    ∀ (n : Nat) (l : List α), (updateAt f n l).length = l.length
  | n, [] => by rw [updateAt_nil]
  | 0, _ :: _ => rfl
  | n + 1, a :: as => by simp [updateAt, updateAt_length f n as]

theorem getD_updateAt_eq {α : Type} (f : α → α) (d : α) :
    ∀ (n : Nat) (l : List α), n < l.length → (updateAt f n l).getD n d = f (l.getD n d)
  | _, [], h => absurd h (by simp)
  | 0, a :: as, _ => rfl
  | n + 1, a :: as, h => by
    simpa [updateAt, List.getD_cons_succ] using getD_updateAt_eq f d n as (by simpa using h)

theorem getD_updateAt_ne {α : Type} (f : α → α) (d : α) :
    ∀ (n i : Nat) (l : List α), n ≠ i → (updateAt f n l).getD i d = l.getD i d
  | n, _, [], _ => by rw [updateAt_nil]
  | 0, 0, a :: as, h => absurd rfl h
  | 0, i + 1, a :: as, _ => by simp [updateAt, List.getD_cons_succ]
  | n + 1, 0, a :: as, _ => rfl
  | n + 1, i + 1, a :: as, h => by
    simpa [updateAt, List.getD_cons_succ] using getD_updateAt_ne f d n i as (by omega)

theorem fireAction_reveal_slides (p k : Nat) (b : Board) :
    (fireAction (.reveal p k) b).slides =
      updateAt (updateAt (fun st => { st with visible := true }) k) p b.slides := by
  show (updateAt _ p (if k = 0 then { b with currentSlideIndex := p } else b).slides) = _
  split <;> rfl

theorem fireAction_clearAnim_slides (b : Board) :
    (fireAction .clearAnim b).slides = b.slides := rfl

theorem fireAction_slides_length (a : TimerAction) (b : Board) :
    (fireAction a b).slides.length = b.slides.length := by
  cases a with
  | reveal p k => rw [fireAction_reveal_slides]; exact updateAt_length _ _ _
  | clearAnim => rfl

theorem fireAction_page_length (a : TimerAction) (b : Board) (i : Nat) :
    ((fireAction a b).slides.getD i []).length = (b.slides.getD i []).length := by
  cases a with
  | clearAnim => rfl
  | reveal p k =>
    rw [fireAction_reveal_slides]
    by_cases hpi : p = i
    · subst hpi
      by_cases hp : p < b.slides.length
      · rw [getD_updateAt_eq _ _ _ _ hp]; exact updateAt_length _ _ _
      · have e1 : (updateAt (updateAt (fun st => { st with visible := true }) k) p
            b.slides).getD p ([] : List StepEntry) = [] :=
          List.getD_eq_default _ _ (by rw [updateAt_length]; omega)
        have e2 : b.slides.getD p ([] : List StepEntry) = [] :=
          List.getD_eq_default _ _ (by omega)
        rw [e1, e2]
    · rw [getD_updateAt_ne _ _ _ _ _ hpi]

/-- Once a step is visible, firing any timer callback keeps it visible. -/
theorem stepVisible_fireAction_mono (a : TimerAction) (b : Board) (k : Nat)
    (h : stepVisible b k = true) : stepVisible (fireAction a b) k = true := by
  cases a with
  | clearAnim => exact h
  | reveal p q =>
    unfold stepVisible at h ⊢
    rw [fireAction_reveal_slides]
    by_cases hp : p = k / STEPS_PER_PAGE
    · rw [hp]
      by_cases hlen : k / STEPS_PER_PAGE < b.slides.length
      · rw [getD_updateAt_eq _ _ _ _ hlen]
        by_cases hq : q = k % STEPS_PER_PAGE
        · by_cases hqlen : k % STEPS_PER_PAGE < (b.slides.getD (k / STEPS_PER_PAGE) []).length
          · rw [hq, getD_updateAt_eq _ _ _ _ hqlen]
          · have e1 : (b.slides.getD (k / STEPS_PER_PAGE) []).getD (k % STEPS_PER_PAGE)
                (⟨"", false⟩ : StepEntry) = ⟨"", false⟩ :=
              List.getD_eq_default _ _ (by omega)
            rw [e1] at h
            exact absurd h (by simp)
        · rw [getD_updateAt_ne _ _ _ _ _ hq]; exact h
      · have e1 : b.slides.getD (k / STEPS_PER_PAGE) ([] : List StepEntry) = [] :=
          List.getD_eq_default _ _ (by omega)
        rw [e1] at h
        exact absurd h (by simp)
    · rw [getD_updateAt_ne _ _ _ _ _ hp]; exact h

/-- A reveal callback for global step `k` marks step `k` visible (given the
entry exists). -/
theorem stepVisible_fireAction_self (b : Board) (k : Nat)
    (h1 : k / STEPS_PER_PAGE < b.slides.length)
    (h2 : k % STEPS_PER_PAGE < (b.slides.getD (k / STEPS_PER_PAGE) []).length) :
    stepVisible (fireAction (.reveal (k / STEPS_PER_PAGE) (k % STEPS_PER_PAGE)) b) k = true := by
  unfold stepVisible
  rw [fireAction_reveal_slides, getD_updateAt_eq _ _ _ _ h1, getD_updateAt_eq _ _ _ _ h2]

/-- A reveal callback for global step `j` leaves every other step's flag
unchanged. -/
theorem stepVisible_fireAction_other (j k : Nat) (hjk : j ≠ k) (b : Board) :
    stepVisible (fireAction (.reveal (j / STEPS_PER_PAGE) (j % STEPS_PER_PAGE)) b) k =
      stepVisible b k := by
  unfold stepVisible
  rw [fireAction_reveal_slides]
  by_cases hp : j / STEPS_PER_PAGE = k / STEPS_PER_PAGE
  · have hq : j % STEPS_PER_PAGE ≠ k % STEPS_PER_PAGE := by
      simp only [STEPS_PER_PAGE] at hp ⊢
      omega
    rw [hp]
    by_cases hlen : k / STEPS_PER_PAGE < b.slides.length
    · rw [getD_updateAt_eq _ _ _ _ hlen, getD_updateAt_ne _ _ _ _ _ hq]
    · have e1 : (updateAt (updateAt (fun st => { st with visible := true })
          (j % STEPS_PER_PAGE)) (k / STEPS_PER_PAGE) b.slides).getD
          (k / STEPS_PER_PAGE) ([] : List StepEntry) = [] :=
        List.getD_eq_default _ _ (by rw [updateAt_length]; omega)
      have e2 : b.slides.getD (k / STEPS_PER_PAGE) ([] : List StepEntry) = [] :=
        List.getD_eq_default _ _ (by omega)
      rw [e1, e2]
  · rw [getD_updateAt_ne _ _ _ _ _ hp]

theorem paginate_getD :
    ∀ (steps : List String) (k : Nat), k < steps.length →
      k / STEPS_PER_PAGE < (paginate steps).length ∧
      k % STEPS_PER_PAGE < ((paginate steps).getD (k / STEPS_PER_PAGE) []).length ∧
      ((paginate steps).getD (k / STEPS_PER_PAGE) []).getD (k % STEPS_PER_PAGE) ⟨"", false⟩ =
        ⟨steps.getD k "", false⟩
  | [], k, h => absurd h (by simp)
  | [a], k, h => by
    have hk : k = 0 := by
      simp only [List.length_singleton] at h
      omega
    subst hk
    simp [paginate, STEPS_PER_PAGE]
  | [a, b], k, h => by
    have hk : k < 2 := by simpa using h
    interval_cases k <;> simp [paginate, STEPS_PER_PAGE]
  | a :: b :: c :: rest, k, h => by
    by_cases hk : k < 3
    · interval_cases k <;> simp [paginate, STEPS_PER_PAGE]
    · obtain ⟨m, rfl⟩ : ∃ m, k = m + 3 := ⟨k - 3, by omega⟩
      have hm : m < rest.length := by
        simp only [List.length_cons] at h
        omega
      have ih := paginate_getD rest m hm
      have hdiv : (m + 3) / STEPS_PER_PAGE = m / STEPS_PER_PAGE + 1 := by
        simp only [STEPS_PER_PAGE]
        omega
      have hmod : (m + 3) % STEPS_PER_PAGE = m % STEPS_PER_PAGE := by
        simp only [STEPS_PER_PAGE]
        omega
      rw [hdiv, hmod]
      simp only [paginate, List.length_cons, List.getD_cons_succ]
      refine ⟨by omega, ih.2.1, ?_⟩
      rw [ih.2.2]

theorem takeWhile_eq_take {α : Type} (p : α → Bool) :
    ∀ l : List α, ∃ m, l.takeWhile p = l.take m
  | [] => ⟨0, rfl⟩
  | a :: l => by
    by_cases h : p a
    · obtain ⟨m, hm⟩ := takeWhile_eq_take p l
      exact ⟨m + 1, by simp [List.takeWhile_cons, h, hm]⟩
    · exact ⟨0, by simp [List.takeWhile_cons, h]⟩

theorem foldl_fire_page_length (l : List Timer) :
    ∀ b : Board,
      (l.foldl (fun b tm => fireAction tm.action b) b).slides.length = b.slides.length ∧
      ∀ i, ((l.foldl (fun b tm => fireAction tm.action b) b).slides.getD i []).length =
        (b.slides.getD i []).length := by
  induction l with
  | nil => exact fun b => ⟨rfl, fun _ => rfl⟩
  | cons tm l ih =>
    intro b
    refine ⟨?_, fun i => ?_⟩
    · rw [List.foldl_cons, (ih _).1, fireAction_slides_length]
    · rw [List.foldl_cons, (ih _).2 i, fireAction_page_length]

theorem drawCommand_animate_timers (now : Nat) (title : String) (steps : List String)
    (s : Sys) (hempty : s.timers = []) :
    (drawCommand now (.animateSequence title steps) s).timers = scheduleBatch now steps := by
  show (stepTimers now steps ++ _).foldl _ s.timers = _
  rw [hempty, foldl_insertTimer _ [] (by simp) (pairwise_scheduleBatch now steps)]
  rfl

/-- After firing the first `m` due timers of one freshly scheduled
`ANIMATE_SEQUENCE`, exactly the steps of global index `< m` are visible. -/
theorem applyBatchPrefix_stepVisible (now : Nat) (title : String) (steps : List String) :
    ∀ (m k : Nat), k < steps.length →
      stepVisible
        (((scheduleBatch now steps).take m).foldl (fun b tm => fireAction tm.action b)
          ⟨paginate steps, 0, true, title⟩) k = decide (k < m) := by
  intro m
  induction m with
  | zero =>
    intro k hk
    simp only [List.take_zero, List.foldl_nil]
    have h := paginate_getD steps k hk
    unfold stepVisible
    rw [h.2.2]
    simp
  | succ m ih =>
    intro k hk
    by_cases hm : m < steps.length
    · have hlenR : (stepTimers now steps).length = steps.length := by
        simp [stepTimers]
      have hget : (scheduleBatch now steps)[m]? =
          some ⟨now + cumulativeDelay steps m,
            .reveal (m / STEPS_PER_PAGE) (m % STEPS_PER_PAGE)⟩ := by
        rw [scheduleBatch, List.getElem?_append_left (by rw [hlenR]; exact hm)]
        simp [stepTimers, List.getElem?_range hm]
      rw [List.take_succ, hget]
      simp only [Option.toList_some, List.foldl_append, List.foldl_cons, List.foldl_nil]
      by_cases hkm : k = m
      · subst hkm
        have hpg := paginate_getD steps k hk
        have hinv := foldl_fire_page_length ((scheduleBatch now steps).take k)
          (⟨paginate steps, 0, true, title⟩ : Board)
        have hv := stepVisible_fireAction_self
          (((scheduleBatch now steps).take k).foldl (fun b tm => fireAction tm.action b)
            ⟨paginate steps, 0, true, title⟩) k
          (by rw [hinv.1]; exact hpg.1)
          (by rw [hinv.2]; exact hpg.2.1)
        rw [hv]
        simp
      · rw [stepVisible_fireAction_other m k (fun hh => hkm hh.symm) _, ih k hk]
        exact decide_eq_decide.mpr (by omega)
    · by_cases hm1 : m = steps.length
      · subst hm1
        have hget : (scheduleBatch now steps)[steps.length]? =
            some ⟨now + cumulativeDelay steps steps.length + 1000, .clearAnim⟩ := by
          rw [scheduleBatch, List.getElem?_append_right (by simp [stepTimers])]
          simp [stepTimers]
        rw [List.take_succ, hget]
        simp only [Option.toList_some, List.foldl_append, List.foldl_cons, List.foldl_nil]
        have hcl : ∀ b : Board, stepVisible (fireAction .clearAnim b) k = stepVisible b k :=
          fun _ => rfl
        rw [hcl, ih k hk]
        exact decide_eq_decide.mpr (by omega)
      · have hlen : (scheduleBatch now steps).length ≤ m := by
          simp only [scheduleBatch, List.length_append, List.length_map, List.length_range,
            stepTimers, List.length_cons, List.length_nil]
          omega
        have e1 : (scheduleBatch now steps).take (m + 1) = (scheduleBatch now steps).take m := by
          rw [List.take_of_length_le hlen, List.take_of_length_le (hlen.trans (Nat.le_succ m))]
        rw [e1, ih k hk]
        exact decide_eq_decide.mpr (by omega)

/-- **C8 (counterexample).**  Reveals can go out of order across a
pre-emption, because `drawCommand` never cancels the previous solution's
timers: solution `A` (two short steps) starts at 0ms, scheduling reveals at
300ms and 700ms; solution `B` (steps `x`, `y`) replaces it at 500ms,
scheduling its own reveals at 800ms and 1200ms.  At 700ms solution `A`'s
stale timer for in-page index 1 fires against `B`'s fresh slides: `B`'s step
1 is visible while `B`'s step 0 is not — step 1 revealed before step 0. -/
theorem C8_reveal_order_counterexample :
    stepVisible (run [(0, Cmd.animateSequence "A" ["a", "b"]),
      (500, Cmd.animateSequence "B" ["x", "y"])] 700 initSys).board 1 = true ∧
    stepVisible (run [(0, Cmd.animateSequence "A" ["a", "b"]),
      (500, Cmd.animateSequence "B" ["x", "y"])] 700 initSys).board 0 = false := by decide

/-- **C8 (amended).**  Within the lifetime of a staged solution a revealed
flag never reverts: firing any timer callback preserves every `visible =
true` flag (and page navigation does not touch the slides at all, see C7).
Reveals are strictly ordered for a solution scheduled on a clean timer queue:
if a `SequenceAnimate` arrives when no timers are pending, then at every
later instant step `k+1` is visible only if step `k` is.  (Without the
clean-queue proviso the ordering fails: a stale reveal timer of a pre-empted
solution can mark a later step of the new solution visible first, see the
counterexample.) -/
theorem C8_reveal_monotone_ordered :
    (∀ (a : TimerAction) (b : Board) (k : Nat),
      stepVisible b k = true → stepVisible (fireAction a b) k = true) ∧
    (∀ (now : Nat) (title : String) (steps : List String) (s : Sys) (T k : Nat),
      s.timers = [] → k + 1 < steps.length →
      stepVisible (runUntil (drawCommand now (.animateSequence title steps) s) T).board
        (k + 1) = true →
      stepVisible (runUntil (drawCommand now (.animateSequence title steps) s) T).board
        k = true) := by
  refine ⟨stepVisible_fireAction_mono, ?_⟩
  intro now title steps s T k hempty hk hvis
  have htimers := drawCommand_animate_timers now title steps s hempty
  obtain ⟨m, hm⟩ :=
    takeWhile_eq_take (fun tm => decide (tm.fireAt ≤ T)) (scheduleBatch now steps)
  have hrw : (runUntil (drawCommand now (.animateSequence title steps) s) T).board =
      ((scheduleBatch now steps).take m).foldl (fun b tm => fireAction tm.action b)
        ⟨paginate steps, 0, true, title⟩ := by
    simp only [runUntil, htimers, hm]
    rfl
  rw [hrw] at hvis ⊢
  rw [applyBatchPrefix_stepVisible now title steps m (k + 1) hk] at hvis
  rw [applyBatchPrefix_stepVisible now title steps m k (by omega)]
  simp only [decide_eq_true_eq] at hvis ⊢
  omega

/-- Witness for C8 (amended): a clean two-step solution at 0ms, observed at
700ms, after both reveal timers (300ms, 700ms) fired; the ordering clause
applied at `k = 0` yields step 0 visible from step 1 visible, and the
monotonicity clause keeps it visible across a further `clearAnim` firing. -/
theorem C8_reveal_monotone_ordered_witness :
    stepVisible (runUntil (drawCommand 0 (.animateSequence "T" ["a", "b"]) initSys) 700).board
      0 = true ∧
    stepVisible (fireAction .clearAnim
      (runUntil (drawCommand 0 (.animateSequence "T" ["a", "b"]) initSys) 700).board) 0 = true := by
  have h0 : stepVisible
      (runUntil (drawCommand 0 (.animateSequence "T" ["a", "b"]) initSys) 700).board 0 = true :=
    C8_reveal_monotone_ordered.2 0 "T" ["a", "b"] initSys 700 0 rfl (by decide) (by decide)
  exact ⟨h0, C8_reveal_monotone_ordered.1 .clearAnim _ 0 h0⟩

/-! ## Visual command gating and delays (C2, C3) -/

theorem visualDelaySeconds_pos (e : ℚ) : 0 < visualDelaySeconds e := by
  unfold visualDelaySeconds
  split
  · norm_num
  · split <;> norm_num

/-- **C2 (counterexample).**  In the newer `App.jsx`, once `streamStartTime`
is established (`audioStartTimeRef = some 0`), an arriving instruction is
handed to the draw callback synchronously inline (`drawNow`) — it is not
scheduled for later realization with a delay — refuting "never realized
synchronously inline". -/
theorem C2_inline_draw_counterexample :
    scheduleVisualCommandNew 3 (Cmd.drawText "hi" none "#fff") ⟨some 0, []⟩ =
      (⟨some 0, []⟩, .drawNow) := rfl

/-- **C2 (amended).**  In both App revisions an instruction arriving before
any utterance audio (`streamStartTime` none) is appended to the queue with
its arrival timestamp and not realized.  When `streamStartTime` is set, the
older revision schedules the instruction for later realization after a
strictly positive computed delay (never synchronously inline), but the newer
revision realizes it immediately, synchronously inline. -/
theorem C2_schedule_gating (now currentAudioTime : ℚ) (cmd : Cmd)
    (sNew : AppStateNew) (sOld : AppStateOld) :
    (sNew.audioStartTime = none →
      scheduleVisualCommandNew now cmd sNew =
        ({ sNew with queue := sNew.queue ++ [⟨cmd, now⟩] }, .queuedOnly)) ∧
    (∀ t0, sNew.audioStartTime = some t0 →
      scheduleVisualCommandNew now cmd sNew = (sNew, .drawNow)) ∧
    (sOld.audioCtxInit = true → sOld.audioStartTime = none →
      scheduleVisualCommandOld now currentAudioTime cmd sOld =
        ({ sOld with queue := sOld.queue ++ [⟨cmd, now⟩] }, .queuedOnly)) ∧
    (∀ t0, sOld.audioCtxInit = true → sOld.audioStartTime = some t0 →
      ∃ d, 0 < d ∧ d = visualDelaySeconds (currentAudioTime - t0) ∧
        scheduleVisualCommandOld now currentAudioTime cmd sOld =
          (sOld, .drawAfter (d * 1000))) := by
  refine ⟨?_, ?_, ?_, ?_⟩
  · intro h
    simp [scheduleVisualCommandNew, h]
  · intro t0 h
    simp [scheduleVisualCommandNew, h]
  · intro h1 h2
    simp [scheduleVisualCommandOld, h1, h2]
  · intro t0 h1 h2
    refine ⟨visualDelaySeconds (currentAudioTime - t0), visualDelaySeconds_pos _, rfl, ?_⟩
    simp only [scheduleVisualCommandOld, h1, h2]
    norm_num
    exact le_of_lt (visualDelaySeconds_pos _)

/-- Witness for C2 (amended): queueing before audio in the newer revision,
and a concrete positive scheduled delay in the older one. -/
theorem C2_schedule_gating_witness :
    scheduleVisualCommandNew 7 (Cmd.drawText "hi" none "#fff") ⟨none, []⟩ =
      (⟨none, [⟨Cmd.drawText "hi" none "#fff", 7⟩]⟩, .queuedOnly) ∧
    ∃ d, 0 < d ∧ d = visualDelaySeconds ((3 : ℚ) - 0) ∧
      scheduleVisualCommandOld 7 3 (Cmd.drawText "hi" none "#fff") ⟨true, some 0, []⟩ =
        (⟨true, some 0, []⟩, .drawAfter (d * 1000)) := by
  refine ⟨?_, ?_⟩
  · exact (C2_schedule_gating 7 3 (Cmd.drawText "hi" none "#fff") ⟨none, []⟩
      ⟨true, some 0, []⟩).1 rfl
  · exact (C2_schedule_gating 7 3 (Cmd.drawText "hi" none "#fff") ⟨none, []⟩
      ⟨true, some 0, []⟩).2.2.2 0 rfl rfl

/-- **C3.**  With an established timeline, the realization delay of the older
`App.jsx` is 1.0s when `elapsed < 0.5s`, 0.5s when `0.5s ≤ elapsed < 2.0s`,
else 0.8s; and flushing a batch of queued instructions schedules the entry at
index `i` after `max 0 ((streamStartTime + (0.8 + i·0.3) − currentClockTime)
· 1000)` ms — clearing the queue, preserving arrival order, with
monotonically non-decreasing delays. -/
theorem C3_delay_buckets_and_stagger :
    (∀ elapsed : ℚ,
      (elapsed < 1/2 → visualDelaySeconds elapsed = 1) ∧
      (1/2 ≤ elapsed → elapsed < 2 → visualDelaySeconds elapsed = 1/2) ∧
      (2 ≤ elapsed → visualDelaySeconds elapsed = 4/5)) ∧
    (∀ (currentAudioTime audioStart : ℚ) (q : List QueuedVisual), q ≠ [] →
      (processQueueOld currentAudioTime ⟨true, some audioStart, q⟩).1.queue = [] ∧
      ((processQueueOld currentAudioTime ⟨true, some audioStart, q⟩).2.map Prod.fst =
        q.map QueuedVisual.cmd) ∧
      (∀ (i : Nat) (qi : QueuedVisual), q[i]? = some qi →
        (processQueueOld currentAudioTime ⟨true, some audioStart, q⟩).2[i]? =
          some (qi.cmd,
            max 0 ((audioStart + (4/5 + (i : ℚ) * (3/10)) - currentAudioTime) * 1000))) ∧
      (∀ (i j : Nat) (pi pj : Cmd × ℚ), i ≤ j →
        (processQueueOld currentAudioTime ⟨true, some audioStart, q⟩).2[i]? = some pi →
        (processQueueOld currentAudioTime ⟨true, some audioStart, q⟩).2[j]? = some pj →
        pi.2 ≤ pj.2)) := by
  constructor
  · intro elapsed
    refine ⟨fun h => ?_, fun h1 h2 => ?_, fun h => ?_⟩
    · unfold visualDelaySeconds
      rw [if_pos h]
    · unfold visualDelaySeconds
      rw [if_neg (by linarith), if_pos h2]
    · unfold visualDelaySeconds
      rw [if_neg (by linarith), if_neg (by linarith)]
  · intro currentAudioTime audioStart q hq
    have hout : (processQueueOld currentAudioTime ⟨true, some audioStart, q⟩).2 =
        q.enum.map (fun iq =>
          (iq.2.cmd,
            max 0 ((audioStart + (4/5 + (iq.1 : ℚ) * (3/10)) - currentAudioTime) * 1000))) := by
      simp [processQueueOld, hq]
    have hidx : ∀ (i : Nat) (qi : QueuedVisual), q[i]? = some qi →
        (processQueueOld currentAudioTime ⟨true, some audioStart, q⟩).2[i]? =
          some (qi.cmd,
            max 0 ((audioStart + (4/5 + (i : ℚ) * (3/10)) - currentAudioTime) * 1000)) := by
      intro i qi hqi
      rw [hout, List.getElem?_map, List.getElem?_enum, hqi]
      rfl
    refine ⟨by simp [processQueueOld, hq], ?_, hidx, ?_⟩
    · rw [hout, List.map_map]
      have : (Prod.fst ∘ fun iq : Nat × QueuedVisual =>
          (iq.2.cmd,
            max 0 ((audioStart + (4/5 + (iq.1 : ℚ) * (3/10)) - currentAudioTime) * 1000))) =
          QueuedVisual.cmd ∘ Prod.snd := rfl
      rw [this, ← List.map_map, List.enum_map_snd]
    · intro i j pi pj hij hpi hpj
      rw [hout, List.getElem?_map, List.getElem?_enum] at hpi hpj
      cases hqi : q[i]? with
      | none => rw [hqi] at hpi; exact absurd hpi (by simp)
      | some qi =>
        cases hqj : q[j]? with
        | none => rw [hqj] at hpj; exact absurd hpj (by simp)
        | some qj =>
          rw [hqi] at hpi
          rw [hqj] at hpj
          simp only [Option.map_some', Option.some.injEq] at hpi hpj
          subst hpi
          subst hpj
          dsimp only
          have hcast : (i : ℚ) ≤ (j : ℚ) := Nat.cast_le.mpr hij
          refine max_le_max le_rfl (mul_le_mul_of_nonneg_right ?_ (by norm_num))
          nlinarith

/-- Witness for C3: the first delay bucket at a concrete elapsed time, and a
one-element batch flush at concrete clock values. -/
theorem C3_delay_buckets_and_stagger_witness :
    visualDelaySeconds (1/4) = 1 ∧
    (processQueueOld 1 ⟨true, some 0, [⟨Cmd.drawText "m" none "#fff", 0⟩]⟩).1.queue = [] := by
  refine ⟨(C3_delay_buckets_and_stagger.1 (1/4)).1 (by norm_num), ?_⟩
  exact (C3_delay_buckets_and_stagger.2 1 0 [⟨Cmd.drawText "m" none "#fff", 0⟩]
    (by simp)).1

/-! ## PCM playback timeline (C5, C6) -/

theorem playPcmChunkNew_start_ge (c d : ℚ) (tl : Timeline) (hc : 0 ≤ c) :
    tl.nextTime ≤ (playPcmChunkNew c d tl).2 := by
  simp only [playPcmChunkNew, BUFFER_LOOKAHEAD]
  split_ifs with h1 h2 h2 <;> linarith

theorem playPcmChunkNew_nextTime (c d : ℚ) (tl : Timeline) :
    (playPcmChunkNew c d tl).1.nextTime = (playPcmChunkNew c d tl).2 + d := rfl

theorem playPcmChunkOld_start_ge (c d : ℚ) (tl : Timeline) :
    tl.nextTime ≤ (playPcmChunkOld c d tl).2 := by
  simp only [playPcmChunkOld]
  split_ifs with h1 <;> linarith

theorem playPcmChunkOld_nextTime (c d : ℚ) (tl : Timeline) :
    (playPcmChunkOld c d tl).1.nextTime = (playPcmChunkOld c d tl).2 + d := rfl

theorem runChunksNew_spec :
    ∀ (inputs : List (ℚ × ℚ)) (tl : Timeline),
      (∀ p ∈ inputs, 0 ≤ p.1 ∧ 0 ≤ p.2) →
      (∀ q ∈ (runChunksNew inputs tl).2.head?, tl.nextTime ≤ q.1) ∧
      List.Chain' (fun p q : ℚ × ℚ => p.1 + p.2 ≤ q.1) (runChunksNew inputs tl).2 ∧
      tl.nextTime ≤ (runChunksNew inputs tl).1.nextTime
  | [], tl, _ => by simp [runChunksNew]
  | (c, d) :: rest, tl, hin => by
    have hc : 0 ≤ c := (hin (c, d) (List.mem_cons_self _ _)).1
    have hd : 0 ≤ d := (hin (c, d) (List.mem_cons_self _ _)).2
    have hrest := runChunksNew_spec rest (playPcmChunkNew c d tl).1
      (fun p hp => hin p (List.mem_cons_of_mem _ hp))
    simp only [runChunksNew]
    refine ⟨?_, ?_, ?_⟩
    · intro q hq
      simp only [List.head?_cons, Option.mem_def, Option.some.injEq] at hq
      rw [← hq]
      exact playPcmChunkNew_start_ge c d tl hc
    · rw [List.chain'_cons']
      refine ⟨?_, hrest.2.1⟩
      intro y hy
      have := hrest.1 y hy
      rw [playPcmChunkNew_nextTime] at this
      exact this
    · calc tl.nextTime ≤ (playPcmChunkNew c d tl).2 := playPcmChunkNew_start_ge c d tl hc
        _ ≤ (playPcmChunkNew c d tl).2 + d := by linarith
        _ = (playPcmChunkNew c d tl).1.nextTime := (playPcmChunkNew_nextTime c d tl).symm
        _ ≤ _ := hrest.2.2

theorem runChunksOld_spec :
    ∀ (inputs : List (ℚ × ℚ)) (tl : Timeline),
      (∀ p ∈ inputs, 0 ≤ p.2) →
      (∀ q ∈ (runChunksOld inputs tl).2.head?, tl.nextTime ≤ q.1) ∧
      List.Chain' (fun p q : ℚ × ℚ => p.1 + p.2 ≤ q.1) (runChunksOld inputs tl).2 ∧
      tl.nextTime ≤ (runChunksOld inputs tl).1.nextTime
  | [], tl, _ => by simp [runChunksOld]
  | (c, d) :: rest, tl, hin => by
    have hd : 0 ≤ d := hin (c, d) (List.mem_cons_self _ _)
    have hrest := runChunksOld_spec rest (playPcmChunkOld c d tl).1
      (fun p hp => hin p (List.mem_cons_of_mem _ hp))
    simp only [runChunksOld]
    refine ⟨?_, ?_, ?_⟩
    · intro q hq
      simp only [List.head?_cons, Option.mem_def, Option.some.injEq] at hq
      rw [← hq]
      exact playPcmChunkOld_start_ge c d tl
    · rw [List.chain'_cons']
      refine ⟨?_, hrest.2.1⟩
      intro y hy
      have := hrest.1 y hy
      rw [playPcmChunkOld_nextTime] at this
      exact this
    · calc tl.nextTime ≤ (playPcmChunkOld c d tl).2 := playPcmChunkOld_start_ge c d tl
        _ ≤ (playPcmChunkOld c d tl).2 + d := by linarith
        _ = (playPcmChunkOld c d tl).1.nextTime := (playPcmChunkOld_nextTime c d tl).symm
        _ ≤ _ := hrest.2.2

/-- **C5.**  For any sequence of chunk arrivals (clock readings ≥ 0,
durations ≥ 0), the scheduled starts never overlap — adjacent `(start, dur)`
pairs satisfy `start_i + dur_i ≤ start_{i+1}` — and `nextTime` is
non-decreasing across every single `playPcmChunk` call; this holds for both
App revisions. -/
theorem C5_timeline_monotonicity :
    (∀ (inputs : List (ℚ × ℚ)) (tl : Timeline),
      (∀ p ∈ inputs, 0 ≤ p.1 ∧ 0 ≤ p.2) →
      List.Chain' (fun p q : ℚ × ℚ => p.1 + p.2 ≤ q.1) (runChunksNew inputs tl).2) ∧
    (∀ (c d : ℚ) (tl : Timeline), 0 ≤ c → 0 ≤ d →
      tl.nextTime ≤ (playPcmChunkNew c d tl).1.nextTime) ∧
    (∀ (inputs : List (ℚ × ℚ)) (tl : Timeline),
      (∀ p ∈ inputs, 0 ≤ p.2) →
      List.Chain' (fun p q : ℚ × ℚ => p.1 + p.2 ≤ q.1) (runChunksOld inputs tl).2) ∧
    (∀ (c d : ℚ) (tl : Timeline), 0 ≤ d →
      tl.nextTime ≤ (playPcmChunkOld c d tl).1.nextTime) := by
  refine ⟨fun inputs tl h => (runChunksNew_spec inputs tl h).2.1, ?_,
    fun inputs tl h => (runChunksOld_spec inputs tl h).2.1, ?_⟩
  · intro c d tl hc hd
    rw [playPcmChunkNew_nextTime]
    have := playPcmChunkNew_start_ge c d tl hc
    linarith
  · intro c d tl hd
    rw [playPcmChunkOld_nextTime]
    have := playPcmChunkOld_start_ge c d tl
    linarith

/-- Witness for C5: two concrete chunks through each revision. -/
theorem C5_timeline_monotonicity_witness :
    List.Chain' (fun p q : ℚ × ℚ => p.1 + p.2 ≤ q.1)
      (runChunksNew [(0, 1/2), (1, 1/2)] initTimeline).2 ∧
    List.Chain' (fun p q : ℚ × ℚ => p.1 + p.2 ≤ q.1)
      (runChunksOld [(0, 1/2), (1, 1/2)] initTimeline).2 ∧
    (⟨3, none⟩ : Timeline).nextTime ≤ (playPcmChunkNew 1 2 ⟨3, none⟩).1.nextTime := by
  refine ⟨C5_timeline_monotonicity.1 _ initTimeline ?_,
    C5_timeline_monotonicity.2.2.1 _ initTimeline ?_,
    C5_timeline_monotonicity.2.1 1 2 ⟨3, none⟩ (by norm_num) (by norm_num)⟩
  · intro p hp
    fin_cases hp <;> norm_num
  · intro p hp
    fin_cases hp <;> norm_num

/-- **C6 (counterexample).**  The disconnect reset clears `audioStartTimeRef`
but leaves `nextTimeRef` untouched, so on the first enqueue after a reset the
new `streamStartTime` is the stale `nextTime`, not `currentClockTime +
lookahead`: enqueue (clock 0, duration 10s), reset, enqueue (clock 1) —
`streamStartTime` becomes `51/5 = 10.2`, but `currentClockTime + lookahead =
1.2`. -/
theorem C6_reset_counterexample :
    (playPcmChunkNew 1 1
        (resetOnDisconnect (playPcmChunkNew 0 10 initTimeline).1)).1.audioStartTime =
      some (51/5) ∧
    (51/5 : ℚ) ≠ 1 + BUFFER_LOOKAHEAD := by
  refine ⟨?_, ?_⟩
  · norm_num [playPcmChunkNew, resetOnDisconnect, initTimeline, BUFFER_LOOKAHEAD]
  · norm_num [BUFFER_LOOKAHEAD]

/-- **C6 (amended).**  On the first enqueue ever (from the initial timeline,
`nextTime = 0`), both `streamStartTime` and the chunk's scheduled start are
set to `currentClockTime + BUFFER_LOOKAHEAD` in the newer revision (the older
revision has no cushion: both become `currentClockTime`); on every enqueue
with `nextTime < currentClockTime` the timeline resynchronizes, scheduling
the chunk at `currentClockTime + BUFFER_LOOKAHEAD` (older: at
`currentClockTime`) rather than in the past.  But the reset does not clear
`nextTime`, and the first enqueue after a reset sets `streamStartTime` to the
resynchronized `nextTime` — whatever it is — not necessarily to
`currentClockTime + lookahead`. -/
theorem C6_first_chunk_and_resync (c d : ℚ) (tl : Timeline) (hc : 0 ≤ c) :
    (playPcmChunkNew c d initTimeline).1.audioStartTime = some (c + BUFFER_LOOKAHEAD) ∧
    (playPcmChunkNew c d initTimeline).2 = c + BUFFER_LOOKAHEAD ∧
    (playPcmChunkOld c d initTimeline).1.audioStartTime = some c ∧
    (playPcmChunkOld c d initTimeline).2 = c ∧
    (tl.nextTime < c → (playPcmChunkNew c d tl).2 = c + BUFFER_LOOKAHEAD) ∧
    (tl.nextTime < c → (playPcmChunkOld c d tl).2 = c) ∧
    (resetOnDisconnect tl).nextTime = tl.nextTime ∧
    (resetOnDisconnect tl).audioStartTime = none ∧
    (∀ nt : ℚ, (playPcmChunkNew c d ⟨nt, none⟩).1.audioStartTime =
      some ((playPcmChunkNew c d ⟨nt, none⟩).2)) := by
  refine ⟨?_, ?_, ?_, ?_, ?_, ?_, rfl, rfl, ?_⟩
  · simp only [playPcmChunkNew, initTimeline, BUFFER_LOOKAHEAD]
    norm_num
  · simp only [playPcmChunkNew, initTimeline, BUFFER_LOOKAHEAD]
    norm_num
  · simp only [playPcmChunkOld, initTimeline]
    split_ifs with h
    · rfl
    · norm_num at h ⊢
      linarith
  · simp only [playPcmChunkOld, initTimeline]
    split_ifs with h
    · rfl
    · norm_num at h ⊢
      linarith
  · intro h
    simp only [playPcmChunkNew, BUFFER_LOOKAHEAD]
    split_ifs with h1 <;> rfl
  · intro h
    simp only [playPcmChunkOld]
    split_ifs
    rfl
  · intro nt
    rfl

/-- Witness for C6 (amended) at concrete clock values. -/
theorem C6_first_chunk_and_resync_witness :
    (playPcmChunkNew 2 1 initTimeline).1.audioStartTime = some (2 + BUFFER_LOOKAHEAD) ∧
    (playPcmChunkOld 2 1 ⟨1, some 0⟩).2 = 2 := by
  refine ⟨(C6_first_chunk_and_resync 2 1 ⟨1, some 0⟩ (by norm_num)).1, ?_⟩
  exact (C6_first_chunk_and_resync 2 1 ⟨1, some 0⟩ (by norm_num)).2.2.2.2.2.1 (by norm_num)

/-! ## Graph sampling (C9) -/

/-- The loop guard of `for (x = range.min; x <= range.max; x += step)` holds
exactly for the first 1361 samples (exact arithmetic), justifying
`sampleXs`. -/
theorem sampleXs_loop_condition (rmin rmax : ℚ) (h : rmin < rmax) (i : Nat) :
    rmin + (i : ℚ) * sampleStep rmin rmax ≤ rmax ↔ i ≤ 1360 := by
  have hstep : sampleStep rmin rmax = (rmax - rmin) / 1360 := by
    simp only [sampleStep, graphWidth, canvasWidth, graphPadding]
    norm_num
  have hs : 0 < sampleStep rmin rmax := by
    rw [hstep]
    apply div_pos (by linarith) (by norm_num)
  have hkey : (1360 : ℚ) * sampleStep rmin rmax = rmax - rmin := by
    rw [hstep]
    field_simp
  constructor
  · intro hle
    by_contra hgt
    push_neg at hgt
    have hi : (1361 : ℚ) ≤ (i : ℚ) := by exact_mod_cast hgt
    have := mul_le_mul_of_nonneg_right hi (le_of_lt hs)
    linarith
  · intro hle
    have hi : (i : ℚ) ≤ 1360 := by exact_mod_cast hle
    have := mul_le_mul_of_nonneg_right hi (le_of_lt hs)
    linarith

theorem pixelX_injective (rmin rmax : ℚ) (h : rmin < rmax) {x1 x2 : ℚ}
    (he : pixelX rmin rmax x1 = pixelX rmin rmax x2) : x1 = x2 := by
  have hD : rmax - rmin ≠ 0 := sub_ne_zero_of_ne (ne_of_gt h)
  simp only [pixelX, xScale, graphWidth, canvasWidth, graphPadding] at he
  field_simp at he
  rcases he with he | he
  · exact he
  · exact absurd he (by norm_num)

theorem sampleXs_mem (rmin rmax : ℚ) (i : Nat) (hi : i < 1361) :
    rmin + (i : ℚ) * sampleStep rmin rmax ∈ sampleXs rmin rmax := by
  unfold sampleXs
  exact List.mem_map_of_mem (fun i : Nat => rmin + (i : ℚ) * sampleStep rmin rmax)
    (List.mem_range.mpr hi)

theorem mem_drawGraphPoints_of_keep (f : ℚ → EvalOutcome) (rmin rmax x : ℚ)
    (hx : x ∈ sampleXs rmin rmax) (p : ℚ × ℚ)
    (hk : keepSample f rmin rmax x = some p) : p ∈ drawGraphPoints f rmin rmax :=
  List.mem_filterMap.mpr ⟨x, hx, hk⟩

/-- **C9 (counterexample).**  The expression oracle `throwAtZero` throws at
the sample `x = 0` of the domain `[-5, 5]`, yet the sampling loop plots the
pixel point `(400, 300)` — the image of `(0, 0)` — for that sample, because
`parseFunction`'s internal `catch` turns the throw into the value `0`.  The
claim says a sample whose evaluation throws is omitted. -/
theorem C9_throw_plots_counterexample :
    throwAtZero 0 = .throws ∧
    ((400 : ℚ), (300 : ℚ)) ∈ drawGraphPoints throwAtZero (-5) 5 := by
  refine ⟨rfl, ?_⟩
  have hx : (0 : ℚ) ∈ sampleXs (-5) 5 := by
    have h := sampleXs_mem (-5) 5 680 (by norm_num)
    have he : (-5 : ℚ) + ((680 : Nat) : ℚ) * sampleStep (-5) 5 = 0 := by
      simp only [sampleStep, graphWidth, canvasWidth, graphPadding]
      norm_num
    rwa [he] at h
  refine mem_drawGraphPoints_of_keep throwAtZero (-5) 5 0 hx _ ?_
  have h0 : parseFunctionEval throwAtZero 0 = .finite 0 := rfl
  simp only [keepSample, h0]
  rw [if_pos (by norm_num)]
  norm_num [pixelX, pixelY, xScale, yScale, originY, graphWidth, graphHeight,
    canvasWidth, canvasHeight, graphPadding, yRange]

/-- **C9 (amended).**  For every sample `x` of the domain: a finite value
within the magnitude bound (`|y| < 100`) is plotted at its pixel point; a
non-finite value, or a finite value with `|y| ≥ 100`, contributes no point
with that sample's abscissa (a gap in the polyline); but a throwing
evaluation is converted by `parseFunction`'s internal catch into the value
`0` and is therefore plotted at `y = 0`, not omitted.  (`drawGraphPoints` is
an order-preserving sublist of the samples' pixel points by construction, so
the polyline connects the kept samples in order.) -/
theorem C9_graph_sampling (f : ℚ → EvalOutcome) (rmin rmax x : ℚ)
    (hr : rmin < rmax) (hx : x ∈ sampleXs rmin rmax) :
    (∀ y : ℚ, parseFunctionEval f x = .finite y → |y| < 100 →
      (pixelX rmin rmax x, pixelY y) ∈ drawGraphPoints f rmin rmax) ∧
    ((parseFunctionEval f x = .nonFinite ∨
        (∃ y, parseFunctionEval f x = .finite y ∧ ¬|y| < 100)) →
      ∀ p ∈ drawGraphPoints f rmin rmax, p.1 ≠ pixelX rmin rmax x) ∧
    (f x = .throws → parseFunctionEval f x = .finite 0 ∧
      (pixelX rmin rmax x, pixelY 0) ∈ drawGraphPoints f rmin rmax) := by
  have hkeep : ∀ y : ℚ, parseFunctionEval f x = .finite y → |y| < 100 →
      (pixelX rmin rmax x, pixelY y) ∈ drawGraphPoints f rmin rmax := by
    intro y hy hylt
    refine mem_drawGraphPoints_of_keep f rmin rmax x hx _ ?_
    simp only [keepSample, hy]
    rw [if_pos hylt]
  refine ⟨hkeep, ?_, ?_⟩
  · intro homit p hp hpx
    obtain ⟨x', hx', hk⟩ := List.mem_filterMap.mp hp
    have hfst : p.1 = pixelX rmin rmax x' := by
      cases hval : parseFunctionEval f x' with
      | finite y =>
        simp only [keepSample, hval] at hk
        by_cases hy : |y| < 100
        · rw [if_pos hy] at hk
          injection hk with hk2
          rw [← hk2]
        · rw [if_neg hy] at hk
          exact Option.noConfusion hk
      | nonFinite =>
        simp only [keepSample, hval] at hk
        exact Option.noConfusion hk
    have hxx : x' = x := pixelX_injective rmin rmax hr (by rw [← hfst, hpx])
    subst hxx
    rcases homit with hnf | ⟨y, hy, hylt⟩
    · simp only [keepSample, hnf] at hk
      exact Option.noConfusion hk
    · simp only [keepSample, hy, if_neg hylt] at hk
      exact Option.noConfusion hk
  · intro hthrows
    have h0 : parseFunctionEval f x = .finite 0 := by
      rw [parseFunctionEval, hthrows]
    exact ⟨h0, hkeep 0 h0 (by norm_num)⟩

/-- Witness for C9 (amended): the oracle `throwAtZero` at the first sample
`x = -5` of the domain `[-5, 5]` evaluates to `-5`, within bounds, so its
pixel point is plotted. -/
theorem C9_graph_sampling_witness :
    (pixelX (-5) 5 (-5), pixelY (-5)) ∈ drawGraphPoints throwAtZero (-5) 5 := by
  have hx : (-5 : ℚ) ∈ sampleXs (-5) 5 := by
    have h := sampleXs_mem (-5) 5 0 (by norm_num)
    have he : (-5 : ℚ) + ((0 : Nat) : ℚ) * sampleStep (-5) 5 = -5 := by
      norm_num
    rwa [he] at h
  refine (C9_graph_sampling throwAtZero (-5) 5 (-5) (by norm_num) hx).1 (-5) ?_ (by norm_num)
  norm_num [parseFunctionEval, throwAtZero]

/-! ## Float32 → Int16 conversion (C10) -/

theorem jsTrunc_bounds {lo hi : ℤ} {q : ℚ} (h1 : (lo : ℚ) ≤ q) (h2 : q ≤ (hi : ℚ)) :
    lo ≤ jsTrunc q ∧ jsTrunc q ≤ hi := by
  rw [jsTrunc]
  by_cases h : (0 : ℚ) ≤ q
  · rw [if_pos h]
    exact ⟨Int.le_floor.mpr h1, (Int.floor_mono h2).trans_eq (Int.floor_intCast hi)⟩
  · rw [if_neg h]
    exact ⟨(Int.ceil_intCast lo).symm.trans_le (Int.ceil_mono h1), Int.ceil_le.mpr h2⟩

theorem jsTrunc_intCast (z : ℤ) : jsTrunc ((z : ℤ) : ℚ) = z := by
  rw [jsTrunc]
  by_cases h : (0 : ℚ) ≤ (z : ℚ)
  · rw [if_pos h, Int.floor_intCast]
  · rw [if_neg h, Int.ceil_intCast]

theorem pcmScaled_trunc_bounds (v : ℚ) :
    (-32768 : ℤ) ≤ jsTrunc (pcmScaled v) ∧ jsTrunc (pcmScaled v) ≤ 32767 := by
  have hs1 : (-1 : ℚ) ≤ max (-1) (min 1 v) := le_max_left _ _
  have hs2 : max (-1 : ℚ) (min 1 v) ≤ 1 := max_le (by norm_num) (min_le_left _ _)
  simp only [pcmScaled]
  by_cases h : max (-1 : ℚ) (min 1 v) < 0
  · rw [if_pos h]
    exact jsTrunc_bounds (by push_cast; nlinarith) (by push_cast; nlinarith)
  · rw [if_neg h]
    push_neg at h
    exact jsTrunc_bounds (by push_cast; nlinarith) (by push_cast; nlinarith)

theorem toInt16_eq_jsTrunc {q : ℚ} (h1 : (-32768 : ℤ) ≤ jsTrunc q) (h2 : jsTrunc q ≤ 32767) :
    toInt16 q = jsTrunc q := by
  rw [toInt16]
  omega

/-- **C10 (counterexample).**  At the sample `1/4` (exactly representable in
Float32) the scaled product is `32767/4 = 8191.75`, but the value stored in
the `Int16Array` is its truncation `8191` — an integer — so the output does
not equal `clamp(s) × 32767` as the claim states. -/
theorem C10_truncation_counterexample :
    floatTo16BitPCM [1/4] = [8191] ∧
    pcmScaled (1/4) = 32767/4 ∧
    ((8191 : ℤ) : ℚ) ≠ 32767/4 := by
  have hsc : pcmScaled (1/4) = 32767/4 := by
    rw [pcmScaled]
    norm_num
  refine ⟨?_, hsc, by norm_num⟩
  show [toInt16 (pcmScaled (1/4))] = [8191]
  rw [hsc, toInt16]
  have : jsTrunc (32767/4) = 8191 := by
    rw [jsTrunc, if_pos (by norm_num)]
    norm_num
  rw [this]
  decide

/-- **C10 (amended).**  `floatTo16BitPCM` is total and length-preserving;
each output sample is the truncation toward zero of
`clamp(s) × 32768` (when negative) respectively `clamp(s) × 32767` (when
non-negative); every output lies within `[-32768, 32767]`; and any sample
`≤ -1` maps to `-32768` while any sample `≥ 1` maps to `32767`. -/
theorem C10_pcm_conversion (input : List ℚ) :
    (floatTo16BitPCM input).length = input.length ∧
    floatTo16BitPCM input = input.map (fun v => jsTrunc (pcmScaled v)) ∧
    (∀ z ∈ floatTo16BitPCM input, -32768 ≤ z ∧ z ≤ 32767) ∧
    (∀ v : ℚ, v ≤ -1 → pcmScaled v = -32768 ∧ toInt16 (pcmScaled v) = -32768) ∧
    (∀ v : ℚ, 1 ≤ v → pcmScaled v = 32767 ∧ toInt16 (pcmScaled v) = 32767) := by
  have hsample : ∀ v : ℚ, toInt16 (pcmScaled v) = jsTrunc (pcmScaled v) := by
    intro v
    exact toInt16_eq_jsTrunc (pcmScaled_trunc_bounds v).1 (pcmScaled_trunc_bounds v).2
  refine ⟨by simp [floatTo16BitPCM], ?_, ?_, ?_, ?_⟩
  · exact List.map_congr_left (fun v _ => hsample v)
  · intro z hz
    obtain ⟨v, _, rfl⟩ := List.mem_map.mp hz
    rw [hsample v]
    exact pcmScaled_trunc_bounds v
  · intro v hv
    have hmin : min (1 : ℚ) v = v := min_eq_right (by linarith)
    have hmax : max (-1 : ℚ) v = -1 := max_eq_left hv
    have hp : pcmScaled v = -32768 := by
      rw [pcmScaled]
      simp only [hmin, hmax]
      rw [if_pos (by norm_num)]
      norm_num
    refine ⟨hp, ?_⟩
    rw [hp, show ((-32768 : ℚ)) = ((-32768 : ℤ) : ℚ) by norm_num, toInt16, jsTrunc_intCast]
    decide
  · intro v hv
    have hmin : min (1 : ℚ) v = 1 := min_eq_left hv
    have hp : pcmScaled v = 32767 := by
      rw [pcmScaled]
      simp only [hmin]
      rw [show max (-1 : ℚ) 1 = 1 from by norm_num, if_neg (by norm_num)]
      norm_num
    refine ⟨hp, ?_⟩
    rw [hp, show ((32767 : ℚ)) = ((32767 : ℤ) : ℚ) by norm_num, toInt16, jsTrunc_intCast]
    decide

/-- Witness for C10 (amended) at a concrete one-sample buffer. -/
theorem C10_pcm_conversion_witness :
    (floatTo16BitPCM [(2 : ℚ)]).length = 1 ∧
    pcmScaled (2 : ℚ) = 32767 := by
  exact ⟨(C10_pcm_conversion [(2 : ℚ)]).1, ((C10_pcm_conversion []).2.2.2.2 2 (by norm_num)).1⟩

end StudyAid
